import Mathlib

/-!
Shallow embedding of the quantum-dataset generator
(`Code/generate_quantum_dataset.py` and `generate_separable_states.py`).

Matrices over ℂ model numpy complex arrays; numpy's `scipy.linalg.eigvals`
followed by `any(eig < 0 for eig in eigenvalues)` is modelled by membership
in the multiset of roots of the characteristic polynomial together with
numpy's lexicographic order on complex numbers (real parts compared first,
imaginary parts breaking ties).
-/

open Matrix Polynomial BigOperators

noncomputable section

namespace GQD

/-- Numpy `kron` for two 2×2 blocks, producing a 4×4 matrix with the
row-major index pairing `(2*i1 + i2)` that numpy uses. -/
def npKron (A B : Matrix (Fin 2) (Fin 2) ℂ) : Matrix (Fin 4) (Fin 4) ℂ :=
  fun i j =>
    A ⟨i.val / 2, by omega⟩ ⟨j.val / 2, by omega⟩ *
    B ⟨i.val % 2, by omega⟩ ⟨j.val % 2, by omega⟩

/-- The matrix `array([[1, 0], [0, -1]])` from `is_entangled`. -/
def pauli_mat_B : Matrix (Fin 2) (Fin 2) ℂ := !![1, 0; 0, -1]

/-- The matrix `eye(2)` from `is_entangled`. -/
def identity_mat : Matrix (Fin 2) (Fin 2) ℂ := 1

/-- The operator `kron(identity_mat, pauli_mat_B)` from `is_entangled`. -/
def transpose_op : Matrix (Fin 4) (Fin 4) ℂ := npKron identity_mat pauli_mat_B

/-- The matrix `rho_T_B = transpose_op @ transpose(rho) @ transpose_op`
computed by `is_entangled` (the full transpose of `rho`, conjugated by
`transpose_op`). -/
def rho_T_B (rho : Matrix (Fin 4) (Fin 4) ℂ) : Matrix (Fin 4) (Fin 4) ℂ :=
  transpose_op * rhoᵀ * transpose_op

/-- Numpy's comparison `z < 0` for a complex scalar `z`: lexicographic on
the pair (real part, imaginary part). -/
def npLtZero (z : ℂ) : Prop := z.re < 0 ∨ (z.re = 0 ∧ z.im < 0)

/-- The eigenvalues returned by `scipy.linalg.eigvals`: the multiset of
complex roots of the characteristic polynomial. -/
def eigvals (M : Matrix (Fin 4) (Fin 4) ℂ) : Multiset ℂ := M.charpoly.roots

/-- The classification computed by `is_entangled` on a 4×4 matrix (after
the shape check has passed): `any(eig < 0 for eig in eigenvals(rho_T_B))`. -/
def is_entangled (rho : Matrix (Fin 4) (Fin 4) ℂ) : Prop :=
  ∃ μ ∈ eigvals (rho_T_B rho), npLtZero μ

/-- A raw numpy 2-D array of arbitrary shape, as passed to `is_entangled`
before the shape check. -/
structure NPArray where
  rows : ℕ
  cols : ℕ
  entry : ℕ → ℕ → ℂ

/-- View a shape-(4,4) `NPArray` as a 4×4 matrix. -/
def NPArray.toMat4 (a : NPArray) : Matrix (Fin 4) (Fin 4) ℂ :=
  fun i j => a.entry i.val j.val

/-- The full `is_entangled`, including the leading shape check
`if rho.shape != (4, 4): raise ValueError(...)`. -/
def is_entangled_checked (a : NPArray) : Except String Prop :=
  if (a.rows, a.cols) = (4, 4) then
    Except.ok (is_entangled a.toMat4)
  else
    Except.error "The input matrix should be a 4x4 density matrix."

/-! ### Basic facts about the embedded classifier -/

/-- Evaluating the characteristic polynomial at `μ` computes
`det (μ • 1 - M)`. -/
theorem eval_charpoly_eq_det (M : Matrix (Fin 4) (Fin 4) ℂ) (μ : ℂ) :
    M.charpoly.eval μ = det (μ • (1 : Matrix (Fin 4) (Fin 4) ℂ) - M) := by
  have hmap : (charmatrix M).map (Polynomial.eval μ) =
      μ • (1 : Matrix (Fin 4) (Fin 4) ℂ) - M := by
    ext i j
    by_cases h : i = j
    · subst h
      simp [charmatrix_apply_eq, Matrix.one_apply, Matrix.smul_apply]
    · simp [charmatrix_apply_ne M _ _ h, Matrix.one_apply_ne h,
        Matrix.smul_apply]
  calc M.charpoly.eval μ = (Polynomial.evalRingHom μ) (det (charmatrix M)) := rfl
    _ = det ((charmatrix M).map (Polynomial.evalRingHom μ)) :=
        RingHom.map_det (Polynomial.evalRingHom μ) (charmatrix M)
    _ = det (μ • (1 : Matrix (Fin 4) (Fin 4) ℂ) - M) := by
        rw [show (charmatrix M).map (Polynomial.evalRingHom μ) =
          (charmatrix M).map (Polynomial.eval μ) from rfl, hmap]

/-- Membership in the eigenvalue multiset is the vanishing of
`det (μ • 1 - M)`. -/
theorem mem_eigvals (M : Matrix (Fin 4) (Fin 4) ℂ) (μ : ℂ) :
    μ ∈ eigvals M ↔ det (μ • (1 : Matrix (Fin 4) (Fin 4) ℂ) - M) = 0 := by
  unfold eigvals
  rw [Polynomial.mem_roots (M.charpoly_monic.ne_zero), Polynomial.IsRoot,
    eval_charpoly_eq_det]

/-- Sign pattern of `transpose_op`: it is the diagonal matrix
`diag(1, -1, 1, -1)`. -/
def tsign : Fin 4 → ℂ := ![1, -1, 1, -1]

theorem transpose_op_eq : transpose_op = Matrix.diagonal tsign := by
  ext i j
  fin_cases i <;> fin_cases j <;>
    simp [transpose_op, npKron, identity_mat, pauli_mat_B, tsign,
      Matrix.diagonal, Matrix.one_apply, Fin.ext_iff] <;> rfl

theorem rho_T_B_apply (rho : Matrix (Fin 4) (Fin 4) ℂ) (i j : Fin 4) :
    rho_T_B rho i j = tsign i * rho j i * tsign j := by
  rw [rho_T_B, transpose_op_eq]
  simp [Matrix.diagonal_mul, Matrix.mul_diagonal, Matrix.transpose_apply]

/-! ### Concrete probe matrices -/

/-- The Bell-state density matrix
`0.5 * [[1,0,0,1],[0,0,0,0],[0,0,0,0],[1,0,0,1]]`. -/
def bellState : Matrix (Fin 4) (Fin 4) ℂ :=
  !![1/2, 0, 0, 1/2; 0, 0, 0, 0; 0, 0, 0, 0; 1/2, 0, 0, 1/2]

/-- The maximally mixed state `I₄ / 4`. -/
def maxMixed : Matrix (Fin 4) (Fin 4) ℂ := (1/4 : ℂ) • 1

/-- A 4×4 probe whose only nonzero eigenvalues are `±i`: the rotation block
`[[0,1],[-1,0]]` padded with zeros. -/
def rotProbe : Matrix (Fin 4) (Fin 4) ℂ :=
  !![0, 1, 0, 0; -1, 0, 0, 0; 0, 0, 0, 0; 0, 0, 0, 0]

theorem rho_T_B_bellState :
    rho_T_B bellState =
      !![1/2, 0, 0, -1/2; 0, 0, 0, 0; 0, 0, 0, 0; -1/2, 0, 0, 1/2] := by
  ext i j
  rw [rho_T_B_apply]
  fin_cases i <;> fin_cases j <;>
    simp [tsign, bellState, Matrix.vecHead, Matrix.vecTail] <;> norm_num

theorem rho_T_B_maxMixed : rho_T_B maxMixed = maxMixed := by
  ext i j
  rw [rho_T_B_apply]
  fin_cases i <;> fin_cases j <;>
    simp [tsign, maxMixed, Matrix.smul_apply, Matrix.one_apply]

theorem rho_T_B_rotProbe : rho_T_B rotProbe = rotProbe := by
  ext i j
  rw [rho_T_B_apply]
  fin_cases i <;> fin_cases j <;>
    simp [tsign, rotProbe, Matrix.vecHead, Matrix.vecTail]

theorem det_bellState (μ : ℂ) :
    det (μ • (1 : Matrix (Fin 4) (Fin 4) ℂ) - rho_T_B bellState) =
      μ ^ 3 * (μ - 1) := by
  rw [rho_T_B_bellState]
  have h : μ • (1 : Matrix (Fin 4) (Fin 4) ℂ) -
      !![1/2, 0, 0, -1/2; 0, 0, 0, 0; 0, 0, 0, 0; -1/2, 0, 0, 1/2] =
      !![μ - 1/2, 0, 0, 1/2; 0, μ, 0, 0; 0, 0, μ, 0; 1/2, 0, 0, μ - 1/2] := by
    ext i j
    fin_cases i <;> fin_cases j <;>
      simp [Matrix.smul_apply, Matrix.one_apply, Matrix.vecHead,
        Matrix.vecTail] <;> norm_num
  rw [h]
  simp [Matrix.det_succ_row_zero, Fin.sum_univ_succ, Fin.castSucc, Fin.castAdd,
    Fin.castLE, Fin.succAbove, Fin.succ, Fin.lt_def, Matrix.vecHead,
    Matrix.vecTail]
  ring

theorem det_rotProbe (μ : ℂ) :
    det (μ • (1 : Matrix (Fin 4) (Fin 4) ℂ) - rho_T_B rotProbe) =
      μ ^ 2 * (μ - Complex.I) * (μ + Complex.I) := by
  rw [rho_T_B_rotProbe]
  have h : μ • (1 : Matrix (Fin 4) (Fin 4) ℂ) - rotProbe =
      !![μ, -1, 0, 0; 1, μ, 0, 0; 0, 0, μ, 0; 0, 0, 0, μ] := by
    ext i j
    fin_cases i <;> fin_cases j <;>
      simp [rotProbe, Matrix.smul_apply, Matrix.one_apply, Matrix.vecHead,
        Matrix.vecTail]
  rw [h]
  have hI : μ ^ 2 * (μ - Complex.I) * (μ + Complex.I) =
      μ ^ 2 * (μ ^ 2 + 1) := by
    have : (μ - Complex.I) * (μ + Complex.I) = μ ^ 2 - Complex.I ^ 2 := by ring
    rw [mul_assoc, this, Complex.I_sq]
    ring
  rw [hI]
  simp [Matrix.det_succ_row_zero, Fin.sum_univ_succ, Fin.castSucc, Fin.castAdd,
    Fin.castLE, Fin.succAbove, Fin.succ, Fin.lt_def, Matrix.vecHead,
    Matrix.vecTail]
  ring

theorem det_maxMixed (μ : ℂ) :
    det (μ • (1 : Matrix (Fin 4) (Fin 4) ℂ) - rho_T_B maxMixed) =
      (μ - 1/4) ^ 4 := by
  rw [rho_T_B_maxMixed, maxMixed, ← sub_smul]
  simp [Matrix.det_smul]

/-! ### Claim theorems for the entanglement classifier -/

/-- C1 (counterexample): on the probe matrix with eigenvalues `{i, -i, 0, 0}`
the code returns entangled (numpy's `eig < 0` holds lexicographically at
`-i`), yet no eigenvalue of `rho_T_B` has a strictly negative real part, so
the claimed "iff strictly negative real part" fails. -/
theorem is_entangled_strict_re_counterexample :
    is_entangled rotProbe ∧
      ¬ ∃ μ ∈ eigvals (rho_T_B rotProbe), μ.re < 0 := by
  constructor
  · refine ⟨-Complex.I, ?_, ?_⟩
    · rw [mem_eigvals, det_rotProbe]
      ring
    · right
      constructor
      · simp
      · simp
  · rintro ⟨μ, hmem, hre⟩
    rw [mem_eigvals, det_rotProbe] at hmem
    rcases mul_eq_zero.mp hmem with h | h
    · rcases mul_eq_zero.mp h with h2 | h2
      · have hμ : μ = 0 := (pow_eq_zero_iff (by norm_num : (2:ℕ) ≠ 0)).mp h2
        rw [hμ] at hre
        simp at hre
      · have hμ : μ = Complex.I := sub_eq_zero.mp h2
        rw [hμ] at hre
        simp at hre
    · have hμ : μ = -Complex.I := eq_neg_of_add_eq_zero_left h
      rw [hμ] at hre
      simp at hre

/-- C1 (amended): `is_entangled` returns true iff some eigenvalue `μ` of
`rho_T_B = T · transpose(rho) · T` satisfies numpy's lexicographic `μ < 0`,
that is `μ.re < 0`, or `μ.re = 0` and `μ.im < 0`. -/
theorem is_entangled_iff_lex_neg_eigenvalue (rho : Matrix (Fin 4) (Fin 4) ℂ) :
    is_entangled rho ↔
      ∃ μ : ℂ, det (μ • (1 : Matrix (Fin 4) (Fin 4) ℂ) - rho_T_B rho) = 0 ∧
        (μ.re < 0 ∨ (μ.re = 0 ∧ μ.im < 0)) := by
  constructor
  · rintro ⟨μ, hm, hn⟩
    exact ⟨μ, (mem_eigvals _ _).mp hm, hn⟩
  · rintro ⟨μ, hd, hn⟩
    exact ⟨μ, (mem_eigvals _ _).mpr hd, hn⟩

/-- C2 (code evaluation): on the Bell state the code computes
`rho_T_B = T · ρᵀ · T`, which is similar to `ρᵀ`; its eigenvalues are
`{1, 0, 0, 0}`, none negative, so `is_entangled` returns `false` — the code
contradicts the spec's requirement that the Bell state be classified
entangled. -/
theorem is_entangled_bellState_eval : ¬ is_entangled bellState := by
  rintro ⟨μ, hmem, hneg⟩
  rw [mem_eigvals, det_bellState] at hmem
  rcases mul_eq_zero.mp hmem with h | h
  · have hμ : μ = 0 := (pow_eq_zero_iff (by norm_num : (3:ℕ) ≠ 0)).mp h
    rw [hμ] at hneg
    simp [npLtZero] at hneg
  · have hμ : μ = 1 := sub_eq_zero.mp h
    rw [hμ] at hneg
    norm_num [npLtZero] at hneg

/-- C3: on the maximally mixed state `I₄/4` the only eigenvalue of
`rho_T_B` is `1/4`, which is not negative, so `is_entangled` returns
`false`, as the spec claims. -/
theorem is_entangled_maxMixed_eval : ¬ is_entangled maxMixed := by
  rintro ⟨μ, hmem, hneg⟩
  rw [mem_eigvals, det_maxMixed] at hmem
  have hμ : μ = 1/4 :=
    sub_eq_zero.mp ((pow_eq_zero_iff (by norm_num : (4:ℕ) ≠ 0)).mp hmem)
  have hre : μ.re = 1/4 := by
    rw [hμ]
    norm_num [Complex.div_re]
  rcases hneg with h1 | ⟨h1, _⟩ <;> rw [hre] at h1 <;> norm_num at h1

/-- C9: the shape check of `is_entangled`: a shape other than (4,4) raises
`ValueError("The input matrix should be a 4x4 density matrix.")`, and a
(4,4) input proceeds to the classification without that error. -/
theorem is_entangled_checked_shape (a : NPArray) :
    ((a.rows, a.cols) ≠ (4, 4) →
      is_entangled_checked a =
        Except.error "The input matrix should be a 4x4 density matrix.") ∧
    ((a.rows, a.cols) = (4, 4) →
      is_entangled_checked a = Except.ok (is_entangled a.toMat4)) := by
  constructor <;> intro h <;> simp [is_entangled_checked, h]

/-- Witness for C9: a 3×3 array of zeros is rejected with the ValueError
message, and a 4×4 array of zeros reaches the classification. -/
theorem is_entangled_checked_shape_witness :
    is_entangled_checked (NPArray.mk 3 3 fun _ _ => 0) =
        Except.error "The input matrix should be a 4x4 density matrix." ∧
      is_entangled_checked (NPArray.mk 4 4 fun _ _ => 0) =
        Except.ok (is_entangled (NPArray.toMat4 (NPArray.mk 4 4 fun _ _ => 0))) :=
  ⟨(is_entangled_checked_shape (NPArray.mk 3 3 fun _ _ => 0)).1 (by decide),
    (is_entangled_checked_shape (NPArray.mk 4 4 fun _ _ => 0)).2 rfl⟩

/-! ### generate_hermitian_product_states (Code/generate_quantum_dataset.py) -/

/-- The body of one loop iteration of `generate_hermitian_product_states`:
`product_state = M @ M.conj().T; product_state /= trace(product_state)`. -/
def hermNormalize {size : ℕ} (M : Matrix (Fin size) (Fin size) ℂ) :
    Matrix (Fin size) (Fin size) ℂ :=
  (Matrix.trace (M * Mᴴ))⁻¹ • (M * Mᴴ)

/-- `generate_hermitian_product_states(size, n_matrices)`: the random draws
are abstracted as a stream `seeds` of complex seed matrices; the function
normalizes each of the first `n_matrices` seeds in order. -/
def generate_hermitian_product_states (size n_matrices : ℕ)
    (seeds : ℕ → Matrix (Fin size) (Fin size) ℂ) :
    List (Matrix (Fin size) (Fin size) ℂ) :=
  (List.range n_matrices).map (fun k => hermNormalize (seeds k))

theorem trace_mul_conjTranspose_star {size : ℕ}
    (M : Matrix (Fin size) (Fin size) ℂ) :
    star (Matrix.trace (M * Mᴴ)) = Matrix.trace (M * Mᴴ) := by
  rw [← Matrix.trace_conjTranspose, Matrix.conjTranspose_mul,
    Matrix.conjTranspose_conjTranspose]

theorem hermNormalize_conjTranspose {size : ℕ}
    (M : Matrix (Fin size) (Fin size) ℂ) :
    (hermNormalize M)ᴴ = hermNormalize M := by
  rw [hermNormalize, Matrix.conjTranspose_smul, Matrix.conjTranspose_mul,
    Matrix.conjTranspose_conjTranspose, star_inv₀,
    trace_mul_conjTranspose_star]

theorem hermNormalize_trace {size : ℕ} (M : Matrix (Fin size) (Fin size) ℂ)
    (h : Matrix.trace (M * Mᴴ) ≠ 0) :
    Matrix.trace (hermNormalize M) = 1 := by
  rw [hermNormalize, Matrix.trace_smul, smul_eq_mul, inv_mul_cancel₀ h]

/-- C4: for every size ≥ 1 and every stream of seed matrices whose Gram
matrices have nonzero trace, each matrix produced by
`generate_hermitian_product_states` equals its own conjugate transpose and
has trace 1. -/
theorem generate_hermitian_product_states_props (size n_matrices : ℕ)
    (_hsize : 1 ≤ size) (seeds : ℕ → Matrix (Fin size) (Fin size) ℂ)
    (htr : ∀ k, Matrix.trace (seeds k * (seeds k)ᴴ) ≠ 0) :
    ∀ P ∈ generate_hermitian_product_states size n_matrices seeds,
      Pᴴ = P ∧ Matrix.trace P = 1 := by
  intro P hP
  rcases List.mem_map.mp hP with ⟨k, _, rfl⟩
  exact ⟨hermNormalize_conjTranspose (seeds k),
    hermNormalize_trace (seeds k) (htr k)⟩

/-- Witness for C4: with size 2, one matrix, and the identity seed, the
trace precondition holds and the produced matrix is Hermitian with
trace 1. -/
theorem generate_hermitian_product_states_props_witness :
    (1 ≤ 2 ∧ ∀ _k : ℕ,
        Matrix.trace ((1 : Matrix (Fin 2) (Fin 2) ℂ) * (1 : Matrix (Fin 2) (Fin 2) ℂ)ᴴ) ≠ 0) ∧
      ∀ P ∈ generate_hermitian_product_states 2 1 (fun _ => 1),
        Pᴴ = P ∧ Matrix.trace P = 1 := by
  have htr : ∀ _k : ℕ,
      Matrix.trace ((1 : Matrix (Fin 2) (Fin 2) ℂ) * (1 : Matrix (Fin 2) (Fin 2) ℂ)ᴴ) ≠ 0 := by
    intro _
    simp
  exact ⟨⟨by norm_num, htr⟩,
    generate_hermitian_product_states_props 2 1 (by norm_num) (fun _ => 1) htr⟩

/-! ### generate_entangled_states (rejection sampling) -/

/-- Lift a real matrix (a `random.rand(4, 4)` draw) to the complex matrices
on which the classifier operates. -/
def liftC (M : Matrix (Fin 4) (Fin 4) ℝ) : Matrix (Fin 4) (Fin 4) ℂ :=
  M.map Complex.ofReal

open scoped Classical in
/-- The `while i < n_states` loop of `generate_entangled_states`, with the
random draws abstracted as the stream `stream` and an explicit fuel bound
on the number of iterations (the Python loop is unbounded; `none` models
running out of fuel before `n_states` matrices are accepted). -/
def genLoop (stream : ℕ → Matrix (Fin 4) (Fin 4) ℝ) (n_states : ℕ) :
    ℕ → ℕ → List (Matrix (Fin 4) (Fin 4) ℝ) →
      Option (List (Matrix (Fin 4) (Fin 4) ℝ))
  | 0, _, states => if n_states ≤ states.length then some states else none
  | fuel + 1, t, states =>
    if n_states ≤ states.length then some states
    else if is_entangled (liftC (stream t)) then
      genLoop stream n_states fuel (t + 1) (states ++ [stream t])
    else
      genLoop stream n_states fuel (t + 1) states

/-- `generate_entangled_states(n_states)`: run the rejection loop starting
from `states = []`, `i = 0`. -/
def generate_entangled_states (stream : ℕ → Matrix (Fin 4) (Fin 4) ℝ)
    (n_states fuel : ℕ) : Option (List (Matrix (Fin 4) (Fin 4) ℝ)) :=
  genLoop stream n_states fuel 0 []

open scoped Classical in
/-- The accepted matrices among the first `t` draws, in draw order. -/
def acceptedPrefix (stream : ℕ → Matrix (Fin 4) (Fin 4) ℝ) (t : ℕ) :
    List (Matrix (Fin 4) (Fin 4) ℝ) :=
  ((List.range t).map stream).filter (fun m => decide (is_entangled (liftC m)))

open scoped Classical in
theorem acceptedPrefix_succ (stream : ℕ → Matrix (Fin 4) (Fin 4) ℝ) (t : ℕ) :
    acceptedPrefix stream (t + 1) =
      acceptedPrefix stream t ++
        (if is_entangled (liftC (stream t)) then [stream t] else []) := by
  rw [acceptedPrefix, acceptedPrefix, List.range_succ, List.map_append,
    List.filter_append]
  by_cases h : is_entangled (liftC (stream t)) <;> simp [h]

open scoped Classical in
theorem genLoop_spec (stream : ℕ → Matrix (Fin 4) (Fin 4) ℝ) (n_states : ℕ) :
    ∀ fuel t states l, states.length ≤ n_states →
      states = acceptedPrefix stream t →
      genLoop stream n_states fuel t states = some l →
      l.length = n_states ∧ ∃ u, l = acceptedPrefix stream u := by
  intro fuel
  induction fuel with
  | zero =>
    intro t states l hlen hacc hrun
    rw [genLoop] at hrun
    split at hrun
    · cases hrun
      exact ⟨le_antisymm hlen (by assumption), t, hacc⟩
    · cases hrun
  | succ fuel ih =>
    intro t states l hlen hacc hrun
    rw [genLoop] at hrun
    split at hrun
    · cases hrun
      exact ⟨le_antisymm hlen (by assumption), t, hacc⟩
    · rename_i hlt
      have hlt' : states.length < n_states := lt_of_not_le hlt
      split at hrun
      · rename_i hent
        refine ih (t + 1) (states ++ [stream t]) l ?_ ?_ hrun
        · simpa using Nat.succ_le_of_lt hlt'
        · rw [acceptedPrefix_succ, hacc, if_pos hent]
      · rename_i hent
        refine ih (t + 1) states l (le_of_lt hlt') ?_ hrun
        rw [acceptedPrefix_succ, hacc, if_neg hent]
        simp

open scoped Classical in
theorem mem_acceptedPrefix (stream : ℕ → Matrix (Fin 4) (Fin 4) ℝ) (u : ℕ)
    (m : Matrix (Fin 4) (Fin 4) ℝ) (hm : m ∈ acceptedPrefix stream u) :
    is_entangled (liftC m) := by
  rw [acceptedPrefix] at hm
  have := List.of_mem_filter hm
  simpa using this

/-- C5: whenever `generate_entangled_states(n_states)` terminates (returns
within the given fuel), it returns exactly `n_states` matrices, namely the
accepted draws of some examined prefix of the stream in acceptance order,
and every returned matrix is classified entangled by `is_entangled` when
re-tested. -/
theorem generate_entangled_states_spec
    (stream : ℕ → Matrix (Fin 4) (Fin 4) ℝ) (n_states fuel : ℕ)
    (l : List (Matrix (Fin 4) (Fin 4) ℝ))
    (h : generate_entangled_states stream n_states fuel = some l) :
    l.length = n_states ∧ (∀ m ∈ l, is_entangled (liftC m)) ∧
      ∃ u, l = acceptedPrefix stream u := by
  have h0 : ([] : List (Matrix (Fin 4) (Fin 4) ℝ)) = acceptedPrefix stream 0 := by
    simp [acceptedPrefix]
  obtain ⟨hlen, u, hl⟩ :=
    genLoop_spec stream n_states fuel 0 [] l (Nat.zero_le _) h0 h
  refine ⟨hlen, ?_, u, hl⟩
  intro m hm
  exact mem_acceptedPrefix stream u m (hl ▸ hm)

/-- Witness for C5: with `n_states = 0` the loop exits immediately and
returns the empty list, which trivially satisfies the specification. -/
theorem generate_entangled_states_spec_witness :
    generate_entangled_states (fun _ => (0 : Matrix (Fin 4) (Fin 4) ℝ)) 0 0 =
        some [] ∧
      (([] : List (Matrix (Fin 4) (Fin 4) ℝ)).length = 0 ∧
        (∀ m ∈ ([] : List (Matrix (Fin 4) (Fin 4) ℝ)),
          is_entangled (liftC m)) ∧
        ∃ u, ([] : List (Matrix (Fin 4) (Fin 4) ℝ)) =
          acceptedPrefix (fun _ => (0 : Matrix (Fin 4) (Fin 4) ℝ)) u) := by
  have h : generate_entangled_states
      (fun _ => (0 : Matrix (Fin 4) (Fin 4) ℝ)) 0 0 = some [] := by
    rw [generate_entangled_states, genLoop]
    simp
  exact ⟨h, generate_entangled_states_spec _ 0 0 [] h⟩

/-! ### generate_separable_states (mode 1) -/

/-- The inner loop of `generate_separable_states`:
`sep_state = 0; for i in range(n_matrices): sep_state += coeffs[i] * kron(rhoA[i], rhoB[i])`.
The coefficients are real (drawn by `generate_coefficients`). -/
def sep_state (n_matrices : ℕ) (coeffs : ℕ → ℝ)
    (rhoA rhoB : ℕ → Matrix (Fin 2) (Fin 2) ℂ) : Matrix (Fin 4) (Fin 4) ℂ :=
  (List.range n_matrices).foldl
    (fun s i => s + (coeffs i : ℂ) • npKron (rhoA i) (rhoB i)) 0

/-- `generate_separable_states(n_matrices, n_states)`: per state `s`, the
subsystem draws and coefficient draws are abstracted as streams indexed by
`s`; the composite states are collected in order. -/
def generate_separable_states (n_matrices n_states : ℕ)
    (rhoA rhoB : ℕ → ℕ → Matrix (Fin 2) (Fin 2) ℂ) (coeffs : ℕ → ℕ → ℝ) :
    List (Matrix (Fin 4) (Fin 4) ℂ) :=
  (List.range n_states).map
    (fun s => sep_state n_matrices (coeffs s) (rhoA s) (rhoB s))

/-- Reference implementation written from the spec's words for C6: the
direct weighted sum `Σ_i coeff[i] · kron(rhoA[i], rhoB[i])`, computed
independently of the accumulation loop. -/
def naiveWeightedKronSum (n : ℕ) (coeffs : ℕ → ℝ)
    (rhoA rhoB : ℕ → Matrix (Fin 2) (Fin 2) ℂ) : Matrix (Fin 4) (Fin 4) ℂ :=
  ∑ i ∈ Finset.range n, (coeffs i : ℂ) • npKron (rhoA i) (rhoB i)

theorem foldl_add_eq_sum (f : ℕ → Matrix (Fin 4) (Fin 4) ℂ) :
    ∀ (n : ℕ) (init : Matrix (Fin 4) (Fin 4) ℂ),
      (List.range n).foldl (fun s i => s + f i) init =
        init + ∑ i ∈ Finset.range n, f i := by
  intro n
  induction n with
  | zero => simp
  | succ n ih =>
    intro init
    rw [List.range_succ, List.foldl_append, ih, Finset.sum_range_succ]
    simp [add_assoc]

theorem sep_state_eq_sum (n : ℕ) (coeffs : ℕ → ℝ)
    (rhoA rhoB : ℕ → Matrix (Fin 2) (Fin 2) ℂ) :
    sep_state n coeffs rhoA rhoB = naiveWeightedKronSum n coeffs rhoA rhoB := by
  rw [sep_state, naiveWeightedKronSum, foldl_add_eq_sum, zero_add]

/-- C6: every composite state built by mode-1 `generate_separable_states`
equals the direct weighted sum of Kronecker products computed by the naive
reference implementation. -/
theorem generate_separable_states_eq_naive (n_matrices n_states : ℕ)
    (_h : 1 ≤ n_matrices) (rhoA rhoB : ℕ → ℕ → Matrix (Fin 2) (Fin 2) ℂ)
    (coeffs : ℕ → ℕ → ℝ) :
    generate_separable_states n_matrices n_states rhoA rhoB coeffs =
      (List.range n_states).map
        (fun s => naiveWeightedKronSum n_matrices (coeffs s) (rhoA s) (rhoB s)) := by
  rw [generate_separable_states]
  exact List.map_congr_left (fun s _ => sep_state_eq_sum n_matrices _ _ _)

/-- Witness for C6: one composite state built from one pair of constant
subsystem matrices with coefficient 1 agrees with the naive reference. -/
theorem generate_separable_states_eq_naive_witness :
    1 ≤ 1 ∧
      generate_separable_states 1 1 (fun _ _ => 1) (fun _ _ => 1)
          (fun _ _ => 1) =
        (List.range 1).map
          (fun _ => naiveWeightedKronSum 1 (fun _ => 1) (fun _ => 1)
            (fun _ => 1)) :=
  ⟨le_refl 1,
    generate_separable_states_eq_naive 1 1 (le_refl 1) (fun _ _ => 1)
      (fun _ _ => 1) (fun _ _ => 1)⟩

/-! ### Invariants of the mode-1 composite states (C10) -/

theorem npKron_conjTranspose (A B : Matrix (Fin 2) (Fin 2) ℂ) :
    (npKron A B)ᴴ = npKron Aᴴ Bᴴ := by
  ext i j
  simp [npKron, Matrix.conjTranspose_apply, star_mul']

theorem npKron_trace (A B : Matrix (Fin 2) (Fin 2) ℂ) :
    Matrix.trace (npKron A B) = Matrix.trace A * Matrix.trace B := by
  simp [Matrix.trace, npKron, Matrix.diag, Fin.sum_univ_succ, Fin.val_succ,
    Fin.val_zero, Fin.mk_zero, Fin.mk_one]
  ring

/-- C10: every composite state returned by mode-1
`generate_separable_states` is a 4×4 matrix (by construction the subsystem
size is fixed at 2, so the Kronecker products are 4×4), and when the drawn
coefficients sum to 1 and the drawn subsystem matrices are Hermitian with
trace 1, it is Hermitian with trace 1. -/
theorem generate_separable_states_hermitian_trace (n_matrices n_states : ℕ)
    (_hn : 1 ≤ n_matrices) (rhoA rhoB : ℕ → ℕ → Matrix (Fin 2) (Fin 2) ℂ)
    (coeffs : ℕ → ℕ → ℝ)
    (hA : ∀ s i, (rhoA s i)ᴴ = rhoA s i ∧ Matrix.trace (rhoA s i) = 1)
    (hB : ∀ s i, (rhoB s i)ᴴ = rhoB s i ∧ Matrix.trace (rhoB s i) = 1)
    (hc : ∀ s, ∑ i ∈ Finset.range n_matrices, coeffs s i = 1) :
    ∀ P ∈ generate_separable_states n_matrices n_states rhoA rhoB coeffs,
      Pᴴ = P ∧ Matrix.trace P = 1 := by
  intro P hP
  rcases List.mem_map.mp hP with ⟨s, _, rfl⟩
  rw [sep_state_eq_sum, naiveWeightedKronSum]
  constructor
  · rw [Matrix.conjTranspose_sum]
    refine Finset.sum_congr rfl (fun i _ => ?_)
    rw [Matrix.conjTranspose_smul, npKron_conjTranspose, (hA s i).1,
      (hB s i).1, Complex.star_def, Complex.conj_ofReal]
  · rw [Matrix.trace_sum]
    have : ∀ i ∈ Finset.range n_matrices,
        Matrix.trace ((coeffs s i : ℂ) • npKron (rhoA s i) (rhoB s i)) =
          (coeffs s i : ℂ) := by
      intro i _
      rw [Matrix.trace_smul, npKron_trace, (hA s i).2, (hB s i).2, mul_one,
        smul_eq_mul, mul_one]
    rw [Finset.sum_congr rfl this]
    rw [← Complex.ofReal_sum, hc s, Complex.ofReal_one]

/-- Witness for C10: one state mixed from the Hermitian trace-1 matrices
`!![1,0;0,0]` with coefficient 1 is Hermitian with trace 1. -/
theorem generate_separable_states_hermitian_trace_witness :
    (1 ≤ 1 ∧
      (∀ s i : ℕ, ((fun (_ _ : ℕ) => !![(1:ℂ), 0; 0, 0]) s i)ᴴ =
          (fun (_ _ : ℕ) => !![(1:ℂ), 0; 0, 0]) s i ∧
        Matrix.trace ((fun (_ _ : ℕ) => !![(1:ℂ), 0; 0, 0]) s i) = 1) ∧
      (∀ s : ℕ, ∑ i ∈ Finset.range 1, (fun (_ _ : ℕ) => (1:ℝ)) s i = 1)) ∧
      ∀ P ∈ generate_separable_states 1 1 (fun _ _ => !![(1:ℂ), 0; 0, 0])
          (fun _ _ => !![(1:ℂ), 0; 0, 0]) (fun _ _ => 1),
        Pᴴ = P ∧ Matrix.trace P = 1 := by
  have hherm : ∀ s i : ℕ, ((fun (_ _ : ℕ) => !![(1:ℂ), 0; 0, 0]) s i)ᴴ =
      (fun (_ _ : ℕ) => !![(1:ℂ), 0; 0, 0]) s i ∧
      Matrix.trace ((fun (_ _ : ℕ) => !![(1:ℂ), 0; 0, 0]) s i) = 1 := by
    intro s i
    constructor
    · ext a b
      fin_cases a <;> fin_cases b <;> simp
    · rw [Matrix.trace_fin_two]
      simp
  have hc : ∀ s : ℕ, ∑ i ∈ Finset.range 1, (fun (_ _ : ℕ) => (1:ℝ)) s i = 1 := by
    intro s
    simp
  exact ⟨⟨le_refl 1, hherm, hc⟩,
    generate_separable_states_hermitian_trace 1 1 (le_refl 1) _ _ _ hherm
      hherm hc⟩

end GQD

namespace GSS

/-! ### generate_separable_states.py (the standalone variant)

Tensors are modelled in numpy's C-order flattening, so
`np.tensordot(u, v, axes=0)` on flattened tensors is the vector Kronecker
product `vkron`. -/

/-- `np.tensordot(u, v, axes=0)` on C-order-flattened tensors. -/
def vkron (u v : List ℂ) : List ℂ := u.flatMap (fun x => v.map (fun y => x * y))

/-- The slice `herm_matrices[j, :, i]`: column `i` of a matrix stored as a
list of rows (`0` for an out-of-range index, which the claims' inputs never
hit). -/
def column (M : List (List ℂ)) (i : ℕ) : List ℂ :=
  M.map (fun row => row.getD i 0)

/-- The value of `temp_product` at the end of iteration `i` of the outer
loop of `calculate_tensor_product`: the outer product of
`herm_matrices[0, :, i]` and `herm_matrices[1, :, i]`, extended left to
right over the remaining subsystems by the inner loop
`for j in np.arange(2, herm_matrices.shape[0])`. -/
def temp_product (H : List (List (List ℂ))) (i : ℕ) : List ℂ :=
  match H with
  | h0 :: h1 :: rest =>
    rest.foldl (fun acc hj => vkron acc (column hj i))
      (vkron (column h0 i) (column h1 i))
  | _ => []

/-- `calculate_tensor_product(herm_matrices, coeffs)` exactly as written in
the source: the outer `for i in range(len(coeffs))` loop only recomputes
`temp_product`; the statement
`tensor_dot_product.append(coeffs[i] * temp_product)` is indented at
function level, outside the loop, so it runs once with the final loop value
`i = len(coeffs) - 1`, and `np.add.reduce` of that one-element list returns
the single appended entry. (For `coeffs = []` the Python code would raise
`NameError`; the claims only concern nonempty coefficient vectors.) -/
def calculate_tensor_product (H : List (List (List ℂ))) (coeffs : List ℂ) :
    List ℂ :=
  ((List.range coeffs.length).foldl (fun _ i => temp_product H i) []).map
    (fun y => coeffs.getD (coeffs.length - 1) 0 * y)

/-- Pointwise sum of a list of equal-length vectors. -/
def sumVecs : List (List ℂ) → List ℂ
  | [] => []
  | [v] => v
  | v :: w :: rest => List.zipWith (· + ·) v (sumVecs (w :: rest))

/-- Reference implementation following the spec's words for C7: the sum
over all column indices `j` of `coeff[j]` times the iterated outer product
of the `j`-th columns of the subsystem matrices. -/
def specTensorSum (H : List (List (List ℂ))) (coeffs : List ℂ) : List ℂ :=
  sumVecs ((List.range coeffs.length).map
    (fun j => (temp_product H j).map (fun y => coeffs.getD j 0 * y)))

/-- Two 2×2 identity matrices as the subsystem stack: a concrete failing
input for C7. -/
def idStack : List (List (List ℂ)) := [[[1, 0], [0, 1]], [[1, 0], [0, 1]]]

/-- C7 (code evaluation): with two 2×2 identity subsystem matrices and
coefficients `[1, 1]`, the code returns only the last term
`coeffs[1] · (e₁ ⊗ e₁) = [0,0,0,1]` because the `append` sits outside the
`for i` loop, while the claimed sum over all column indices is
`[1,0,0,1]`. -/
theorem calculate_tensor_product_eval :
    calculate_tensor_product idStack [1, 1] = [0, 0, 0, 1] ∧
      specTensorSum idStack [1, 1] = [1, 0, 0, 1] ∧
      calculate_tensor_product idStack [1, 1] ≠ specTensorSum idStack [1, 1] := by
  have hr : List.range (2 : ℕ) = [0, 1] := rfl
  have h1 : calculate_tensor_product idStack [1, 1] = [0, 0, 0, 1] := by
    simp [calculate_tensor_product, idStack, temp_product, vkron, column, hr]
  have h2 : specTensorSum idStack [1, 1] = [1, 0, 0, 1] := by
    simp [specTensorSum, sumVecs, idStack, temp_product, vkron, column, hr]
  refine ⟨h1, h2, ?_⟩
  rw [h1, h2]
  simp

end GSS

end
